import Mathlib

/-!
Verification of `collatz-map-density.py`: a shallow embedding of the
trajectory walker (`walk_collect_odds`), the run-pair accumulator inside
`main`, and `main`'s event stream (checkpoint prints and heartbeat
redraws), together with theorems settling the specification's claims.

Machine integers are embedded as `Nat` (Python integers are unbounded and
all values here are nonnegative); the walker's unbounded `while True`
loop is embedded with explicit fuel, returning `none` on fuel exhaustion,
so every statement about a terminating walk is conditional on
`walk_collect_odds fuel … = some …`.
-/

/-- The two classifications: the code's `"green"` (spec `Discovered`) and
`"blue"` (spec `Known`). -/
inductive Color
  | green
  | blue
deriving DecidableEq

/-- Source `is_pow2`: `x > 0 and (x & (x - 1)) == 0`. -/
def is_pow2 (x : Nat) : Bool :=
  decide (0 < x) && decide (x &&& (x - 1) = 0)

/-- Source `step`: `n // 2` when even, else `3*n + 1`. -/
def step (n : Nat) : Nat :=
  if n % 2 = 0 then n / 2 else 3 * n + 1

/-- The `while True` loop of `walk_collect_odds`, with fuel.  Each pass
steps `cur`; if the new value is odd and already in `seen` it is added to
`odds` and the walk returns `green` (the code's line 46 returns `"green"`
here, not `"blue"`); otherwise an odd value is added to `odds`, and the
walk returns `green` when the value is 1 or a power of two. -/
def walkLoop (seen : Finset Nat) : Nat → Nat → Finset Nat → Option (Color × Finset Nat)
  | 0, _, _ => none
  | fuel + 1, cur, odds =>
    if step cur % 2 = 1 ∧ step cur ∈ seen then
      some (Color.green, insert (step cur) odds)
    else if step cur = 1 ∨ is_pow2 (step cur) = true then
      some (Color.green, if step cur % 2 = 1 then insert (step cur) odds else odds)
    else
      walkLoop seen fuel (step cur) (if step cur % 2 = 1 then insert (step cur) odds else odds)

/-- Source `walk_collect_odds`: immediately `(blue, {start_n})` when the
start is already memoized, else run the loop with visited set `{start_n}`. -/
def walk_collect_odds (fuel : Nat) (start_n : Nat) (seen_odds : Finset Nat) :
    Option (Color × Finset Nat) :=
  if start_n ∈ seen_odds then some (Color.blue, {start_n})
  else walkLoop seen_odds fuel start_n {start_n}

/-- Spec-side definition, following the spec's walker description: step
from `cur` and report `some true` when an odd integer present in `memo`
is encountered strictly before the trajectory reaches 1 or a power of
two, `some false` when the power-of-two tail is reached first (`none` on
fuel exhaustion).  Used to compare the spec's claimed classification rule
with the code's. -/
def specHitsMemoBeforeTail (memo : Finset Nat) : Nat → Nat → Option Bool
  | 0, _ => none
  | fuel + 1, cur =>
    if step cur % 2 = 1 ∧ step cur ∈ memo then some true
    else if step cur = 1 ∨ is_pow2 (step cur) = true then some false
    else specHitsMemoBeforeTail memo fuel (step cur)

/-- Spec-side definition of the set of odd integers encountered while
stepping from `cur`, "collecting every odd integer encountered, until it
either reaches an integer already in the memoization set or reaches a
power-of-two" (the terminating memoized odd included, as the code adds it
before returning). -/
def specOddsFrom (memo : Finset Nat) : Nat → Nat → Option (Finset Nat)
  | 0, _ => none
  | fuel + 1, cur =>
    if step cur % 2 = 1 ∧ step cur ∈ memo then some {step cur}
    else if step cur = 1 ∨ is_pow2 (step cur) = true then
      some (if step cur % 2 = 1 then {step cur} else ∅)
    else
      (specOddsFrom memo fuel (step cur)).map
        (fun u => (if step cur % 2 = 1 then ({step cur} : Finset Nat) else ∅) ∪ u)

/-- The run-length / pairing state of `main` (lines 93-101): current run
color (`None` before the first counted start), current run length, the
pending closed green-run length awaiting a blue partner, and the
pairs-only cumulative tallies. -/
structure RunAcc where
  current_color : Option Color
  current_len : Nat
  pending_green : Option Nat
  total_green : Nat
  total_blue : Nat
  total_runs : Nat
deriving DecidableEq

/-- Initial accumulator state of `main`. -/
def initAcc : RunAcc :=
  { current_color := none, current_len := 0, pending_green := none,
    total_green := 0, total_blue := 0, total_runs := 0 }

/-- One observed classification (lines 119-139 of `main`): start a run,
extend it, or close it at a boundary — a closed green run becomes the
pending length, a closed blue run with a pending green completes a pair
and updates the tallies, a closed blue run with no pending green is
dropped. -/
def observe (a : RunAcc) (color : Color) : RunAcc :=
  match a.current_color with
  | none => { a with current_color := some color, current_len := 1 }
  | some cc =>
    if color = cc then { a with current_len := a.current_len + 1 }
    else if cc = Color.green then
      { a with pending_green := some a.current_len,
               current_color := some color, current_len := 1 }
    else
      match a.pending_green with
      | some g =>
        { a with total_green := a.total_green + g,
                 total_blue := a.total_blue + a.current_len,
                 total_runs := a.total_runs + (g + a.current_len),
                 pending_green := none,
                 current_color := some color, current_len := 1 }
      | none => { a with current_color := some color, current_len := 1 }

/-- The percentage pair computed at lines 143-147: `(0, 0)` unless
`total_runs > 0`, else `100 * total / total_runs` for each tally, over ℚ
(Python floats carry exact small integers; the ratio structure is what
the spec constrains). -/
def pctPair (a : RunAcc) : ℚ × ℚ :=
  if 0 < a.total_runs then
    (100 * (a.total_green : ℚ) / (a.total_runs : ℚ),
     100 * (a.total_blue : ℚ) / (a.total_runs : ℚ))
  else (0, 0)

/-- Spec-side run-length encoding of a classification sequence, most
recent run first: each element is `(color, length)`. -/
def runsRevStep (rs : List (Color × Nat)) (c : Color) : List (Color × Nat) :=
  match rs with
  | (c0, k) :: rest => if c = c0 then (c0, k + 1) :: rest else (c, 1) :: (c0, k) :: rest
  | [] => [(c, 1)]

/-- Runs of a classification list, most recent first. -/
def runsRev (l : List Color) : List (Color × Nat) :=
  l.foldl runsRevStep []

/-- Spec-side pairing scan over a chronological list of closed runs: a
green run's length becomes the pending value (overwriting), a blue run
with a pending value completes a pair added to the totals, a blue run
with no pending value is dropped.  Returns (pending, total green, total
blue). -/
def pairScan : Option Nat → List (Color × Nat) → Option Nat × Nat × Nat
  | p, [] => (p, 0, 0)
  | _, (Color.green, k) :: rest => pairScan (some k) rest
  | p, (Color.blue, k) :: rest =>
    match p with
    | some g =>
      ((pairScan none rest).1,
       (pairScan none rest).2.1 + g, (pairScan none rest).2.2 + k)
    | none => pairScan none rest

/-- The closed runs of a classification list, in chronological order:
every run except the still-open most recent one. -/
def closedRuns (l : List Color) : List (Color × Nat) :=
  (runsRev l).tail.reverse

/-- Sum of the lengths of all runs closed as part of a completed
green-blue pair of `l`. -/
def pairSum (l : List Color) : Nat :=
  (pairScan none (closedRuns l)).2.1 + (pairScan none (closedRuns l)).2.2

/-- A strictly alternating classification sequence: for each `(a, b)` a
green run of length `a` followed by a blue run of length `b`. -/
def altSeq : List (Nat × Nat) → List Color
  | [] => []
  | (a, b) :: ps =>
    List.replicate a Color.green ++ List.replicate b Color.blue ++ altSeq ps

/-- Helper shape for the alternating sequence: the same sequence with the
leading green element peeled off and a green element after each pair. -/
def glued : List (Nat × Nat) → List Color
  | [] => []
  | (a, b) :: ps =>
    List.replicate (a - 1) Color.green ++ List.replicate b Color.blue ++
      Color.green :: glued ps

/-- Events `main` sends to the presentation layer: a checkpoint print
(power label, the two percentages, and the just-processed start) and a
payload-free heartbeat redraw (tagged with the start that triggered it). -/
inductive Ev
  | checkpoint (pow : Nat) (g_pct b_pct : ℚ) (atN : Nat)
  | heartbeat (atN : Nat)
deriving DecidableEq

/-- The per-iteration state of `main`'s loop (besides the memo set):
accumulator, the previous iteration's run color (line 169; initially
`"green"`, and `none` once `current_color` is copied while still unset),
progress counter, checkpoint power counter, the deferred-print flag, and
the emitted event trace. -/
structure MState where
  acc : RunAcc
  previous_color : Option Color
  processed : Nat
  next_pow : Nat
  print_await_next_pair : Bool
  events : List Ev
deriving DecidableEq

/-- `main`'s loop state before the first iteration. -/
def initM : MState :=
  { acc := initAcc, previous_color := some Color.green, processed := 0,
    next_pow := 2, print_await_next_pair := false, events := [] }

/-- The accumulator after one iteration of `main` on start `n` with walk
classification `color`: `n = 1` is skipped (line 118). -/
def updAcc (s : MState) (n : Nat) (color : Color) : RunAcc :=
  if n = 1 then s.acc else observe s.acc color

/-- The events printed during one iteration of `main` (lines 149-167), in
program order: the deferred checkpoint when the flag is set, the current
run just became blue and the previous iteration's run was green; the
boundary checkpoint when `n + 1 = 2 ^ next_pow` and `n < 17`; the
heartbeat when `n % 16384 == 1`. -/
def emittedEvents (s : MState) (n : Nat) (color : Color) : List Ev :=
  (if s.print_await_next_pair = true ∧
      (updAcc s n color).current_color = some Color.blue ∧
      s.previous_color = some Color.green then
    [Ev.checkpoint s.next_pow (pctPair (updAcc s n color)).1
      (pctPair (updAcc s n color)).2 n]
  else []) ++
  (if n + 1 = 2 ^ s.next_pow then
    (if 17 ≤ n then []
     else [Ev.checkpoint s.next_pow (pctPair (updAcc s n color)).1
       (pctPair (updAcc s n color)).2 n])
  else []) ++
  (if n % 16384 = 1 then [Ev.heartbeat n] else [])

/-- One iteration of `main`'s loop body on start `n` with classification
`color` (lines 115-169): account the run, print the due events, set or
clear the deferred-print flag, advance the power counter at a boundary,
and record the run color for the next iteration. -/
def mainStep (s : MState) (n : Nat) (color : Color) : MState :=
  { acc := updAcc s n color,
    previous_color := (updAcc s n color).current_color,
    processed := s.processed + 1,
    next_pow := if n + 1 = 2 ^ s.next_pow then s.next_pow + 1 else s.next_pow,
    print_await_next_pair :=
      if n + 1 = 2 ^ s.next_pow ∧ 17 ≤ n then true
      else if s.print_await_next_pair = true ∧
        (updAcc s n color).current_color = some Color.blue ∧
        s.previous_color = some Color.green then false
      else s.print_await_next_pair,
    events := s.events ++ emittedEvents s n color }

/-- Run `main`'s loop over a list of classifications, the i-th taken as
the result of the walk from the i-th odd start (`n = 1, 3, 5, …`). -/
def runColorsAux : MState → Nat → List Color → MState
  | s, _, [] => s
  | s, n, c :: cs => runColorsAux (mainStep s n c) (n + 2) cs

/-- `main`'s loop from its initial state over a classification list. -/
def runColors (cs : List Color) : MState :=
  runColorsAux initM 1 cs

/-- Fold `main`'s loop body over explicit (start, classification) pairs. -/
def runPairs (s : MState) (L : List (Nat × Color)) : MState :=
  L.foldl (fun t p => mainStep t p.1 p.2) s

/-- Full driver state: the shared memo set plus the loop state. -/
structure DriveState where
  seen : Finset Nat
  ms : MState
deriving DecidableEq

/-- Driver state at the top of `main`: memo seeded with `{1}`. -/
def driveInit : DriveState :=
  { seen := {1}, ms := initM }

/-- One full driver iteration on start `n`: run the walk against the
current memo, merge the returned odds into the memo, then run the loop
body (`none` when the walk's fuel runs out). -/
def driveStep (fuel : Nat) (st : DriveState) (n : Nat) : Option DriveState :=
  match walk_collect_odds fuel n st.seen with
  | none => none
  | some (color, odds) =>
    some { seen := st.seen ∪ odds, ms := mainStep st.ms n color }

/-- The driver over a list of starts. -/
def drive (fuel : Nat) : DriveState → List Nat → Option DriveState
  | st, [] => some st
  | st, n :: ns =>
    match driveStep fuel st n with
    | none => none
    | some st' => drive fuel st' ns

/-- The odd starts `1, 3, …, maxVal` scanned by `main`
(`range(1, MAX_VAL + 1, 2)`). -/
def oddsUpTo (maxVal : Nat) : List Nat :=
  (List.range ((maxVal + 1) / 2)).map (fun i => 2 * i + 1)


/-- The walker's loop can only ever return the color `green`: both of its
return statements (line 46 and line 49 of the source) return `"green"`. -/
theorem walkLoop_green : ∀ (fuel : Nat) (seen : Finset Nat) (cur : Nat) (odds : Finset Nat)
    (c : Color) (v : Finset Nat),
    walkLoop seen fuel cur odds = some (c, v) → c = Color.green := by
  intro fuel
  induction fuel with
  | zero => intro seen cur odds c v h; simp [walkLoop] at h
  | succ f ih =>
    intro seen cur odds c v h
    simp only [walkLoop] at h
    by_cases h1 : step cur % 2 = 1 ∧ step cur ∈ seen
    · rw [if_pos h1] at h
      simp only [Option.some.injEq, Prod.mk.injEq] at h
      exact h.1.symm
    · rw [if_neg h1] at h
      by_cases h2 : step cur = 1 ∨ is_pow2 (step cur) = true
      · rw [if_pos h2] at h
        simp only [Option.some.injEq, Prod.mk.injEq] at h
        exact h.1.symm
      · rw [if_neg h2] at h
        exact ih seen (step cur) _ c v h

/-- The loop's returned visited set is the incoming set united with the
spec-described set of odd integers encountered while stepping. -/
theorem walkLoop_odds : ∀ (fuel : Nat) (seen : Finset Nat) (cur : Nat) (odds : Finset Nat)
    (c : Color) (v : Finset Nat),
    walkLoop seen fuel cur odds = some (c, v) →
    ∃ u, specOddsFrom seen fuel cur = some u ∧ v = odds ∪ u := by
  intro fuel
  induction fuel with
  | zero => intro seen cur odds c v h; simp [walkLoop] at h
  | succ f ih =>
    intro seen cur odds c v h
    simp only [walkLoop] at h
    simp only [specOddsFrom]
    by_cases h1 : step cur % 2 = 1 ∧ step cur ∈ seen
    · rw [if_pos h1] at h
      rw [if_pos h1]
      simp only [Option.some.injEq, Prod.mk.injEq] at h
      refine ⟨{step cur}, rfl, ?_⟩
      rw [← h.2]
      ext x
      simp only [Finset.mem_insert, Finset.mem_union, Finset.mem_singleton]
      tauto
    · rw [if_neg h1] at h
      rw [if_neg h1]
      by_cases h2 : step cur = 1 ∨ is_pow2 (step cur) = true
      · rw [if_pos h2] at h
        rw [if_pos h2]
        simp only [Option.some.injEq, Prod.mk.injEq] at h
        by_cases ho : step cur % 2 = 1
        · rw [if_pos ho] at h
          rw [if_pos ho]
          refine ⟨{step cur}, rfl, ?_⟩
          rw [← h.2]
          ext x
          simp only [Finset.mem_insert, Finset.mem_union, Finset.mem_singleton]
          tauto
        · rw [if_neg ho] at h
          rw [if_neg ho]
          refine ⟨∅, rfl, ?_⟩
          rw [← h.2, Finset.union_empty]
      · rw [if_neg h2] at h
        rw [if_neg h2]
        by_cases ho : step cur % 2 = 1
        · rw [if_pos ho] at h
          rw [if_pos ho]
          obtain ⟨u0, hu0, hv⟩ := ih seen (step cur) _ c v h
          rw [hu0]
          refine ⟨{step cur} ∪ u0, rfl, ?_⟩
          rw [hv]
          ext x
          simp only [Finset.mem_insert, Finset.mem_union, Finset.mem_singleton]
          tauto
        · rw [if_neg ho] at h
          rw [if_neg ho]
          obtain ⟨u0, hu0, hv⟩ := ih seen (step cur) _ c v h
          rw [hu0]
          refine ⟨∅ ∪ u0, rfl, ?_⟩
          rw [hv, Finset.empty_union]

/-- After observing a classification, the current run has that color. -/
theorem observe_current : ∀ (a : RunAcc) (c : Color),
    (observe a c).current_color = some c := by
  intro a c
  cases h : a.current_color with
  | none => simp [observe, h]
  | some cc =>
    by_cases h1 : c = cc
    · simp [observe, h, h1]
    · by_cases h2 : cc = Color.green
      · subst h2
        simp [observe, h, h1]
      · cases h3 : a.pending_green <;> simp [observe, h, h1, h2, h3]

/-- Appending a closed green run to the pairing scan stores its length as
the pending value and leaves the totals unchanged. -/
theorem pairScan_snoc_green : ∀ (xs : List (Color × Nat)) (p : Option Nat) (k : Nat)
    (q : Option Nat) (t1 t2 : Nat),
    pairScan p xs = (q, t1, t2) →
    pairScan p (xs ++ [(Color.green, k)]) = (some k, t1, t2) := by
  intro xs
  induction xs with
  | nil =>
    intro p k q t1 t2 h
    simp only [pairScan, Prod.mk.injEq] at h
    simp only [List.nil_append, pairScan]
    rw [← h.2.1, ← h.2.2]
  | cons x xs ih =>
    intro p k q t1 t2 h
    obtain ⟨c, m⟩ := x
    cases c with
    | green =>
      simp only [pairScan] at h
      simp only [List.cons_append, pairScan]
      exact ih (some m) k q t1 t2 h
    | blue =>
      cases p with
      | some g =>
        simp only [pairScan, Prod.mk.injEq] at h
        simp only [List.cons_append, pairScan]
        obtain ⟨z1, z2, z3⟩ := h
        have hx := ih none k (pairScan none xs).1 (pairScan none xs).2.1 (pairScan none xs).2.2 rfl
        simp only [List.append_eq] at hx ⊢
        rw [hx]
        simp only [Prod.mk.injEq]
        refine ⟨?_, ?_, ?_⟩ <;> first | trivial | omega
      | none =>
        simp only [pairScan] at h
        simp only [List.cons_append, pairScan]
        exact ih none k q t1 t2 h

/-- Appending a closed blue run when a green length is pending completes a
pair: the pending green length and the blue run's length are added to the
totals and the pending value is cleared. -/
theorem pairScan_snoc_blue_some : ∀ (xs : List (Color × Nat)) (p : Option Nat) (k g t1 t2 : Nat),
    pairScan p xs = (some g, t1, t2) →
    pairScan p (xs ++ [(Color.blue, k)]) = (none, t1 + g, t2 + k) := by
  intro xs
  induction xs with
  | nil =>
    intro p k g t1 t2 h
    simp only [pairScan, Prod.mk.injEq] at h
    rw [h.1]
    simp only [List.nil_append, pairScan]
    rw [← h.2.1, ← h.2.2]
  | cons x xs ih =>
    intro p k g t1 t2 h
    obtain ⟨c, m⟩ := x
    cases c with
    | green =>
      simp only [pairScan] at h
      simp only [List.cons_append, pairScan]
      exact ih (some m) k g t1 t2 h
    | blue =>
      cases p with
      | some g0 =>
        simp only [pairScan, Prod.mk.injEq] at h
        simp only [List.cons_append, pairScan]
        obtain ⟨z1, z2, z3⟩ := h
        have hsplit : pairScan none xs =
            ((pairScan none xs).1, (pairScan none xs).2.1, (pairScan none xs).2.2) := rfl
        rw [z1] at hsplit
        have hx := ih none k g (pairScan none xs).2.1 (pairScan none xs).2.2 hsplit
        simp only [List.append_eq] at hx ⊢
        rw [hx]
        simp only [Prod.mk.injEq]
        refine ⟨?_, ?_, ?_⟩ <;> first | trivial | omega
      | none =>
        simp only [pairScan] at h
        simp only [List.cons_append, pairScan]
        exact ih none k g t1 t2 h

/-- Appending a closed blue run when no green length is pending drops it:
the totals are unchanged (and nothing becomes pending). -/
theorem pairScan_snoc_blue_none : ∀ (xs : List (Color × Nat)) (p : Option Nat) (k t1 t2 : Nat),
    pairScan p xs = (none, t1, t2) →
    pairScan p (xs ++ [(Color.blue, k)]) = (none, t1, t2) := by
  intro xs
  induction xs with
  | nil =>
    intro p k t1 t2 h
    simp only [pairScan, Prod.mk.injEq] at h
    rw [h.1]
    simp only [List.nil_append, pairScan]
    rw [← h.2.1, ← h.2.2]
  | cons x xs ih =>
    intro p k t1 t2 h
    obtain ⟨c, m⟩ := x
    cases c with
    | green =>
      simp only [pairScan] at h
      simp only [List.cons_append, pairScan]
      exact ih (some m) k t1 t2 h
    | blue =>
      cases p with
      | some g0 =>
        simp only [pairScan, Prod.mk.injEq] at h
        simp only [List.cons_append, pairScan]
        obtain ⟨z1, z2, z3⟩ := h
        have hsplit : pairScan none xs =
            ((pairScan none xs).1, (pairScan none xs).2.1, (pairScan none xs).2.2) := rfl
        rw [z1] at hsplit
        have hx := ih none k (pairScan none xs).2.1 (pairScan none xs).2.2 hsplit
        simp only [List.append_eq] at hx ⊢
        rw [hx]
        simp only [Prod.mk.injEq]
        refine ⟨?_, ?_, ?_⟩ <;> first | trivial | omega
      | none =>
        simp only [pairScan] at h
        simp only [List.cons_append, pairScan]
        exact ih none k t1 t2 h

/-- Characterization of `main`'s run accumulation: after folding `observe`
over any classification list, the current run matches the head of the
run-length encoding, and the pending value and tallies are exactly those
of the spec-side pairing scan over the closed runs. -/
theorem foldObserve_char : ∀ (l : List Color),
    (runsRev l = [] ∧ l.foldl observe initAcc = initAcc) ∨
    (∃ c k rest, runsRev l = (c, k) :: rest ∧
      l.foldl observe initAcc =
        { current_color := some c, current_len := k,
          pending_green := (pairScan none rest.reverse).1,
          total_green := (pairScan none rest.reverse).2.1,
          total_blue := (pairScan none rest.reverse).2.2,
          total_runs := (pairScan none rest.reverse).2.1 + (pairScan none rest.reverse).2.2 }) := by
  intro l
  induction l using List.reverseRecOn with
  | nil => left; exact ⟨rfl, rfl⟩
  | append_singleton l c ih =>
    right
    have hr : runsRev (l ++ [c]) = runsRevStep (runsRev l) c := by
      simp [runsRev, List.foldl_append]
    have hf : (l ++ [c]).foldl observe initAcc = observe (l.foldl observe initAcc) c := by
      simp [List.foldl_append]
    rcases ih with ⟨h0, hfold⟩ | ⟨c0, k, rest, h0, hfold⟩
    · refine ⟨c, 1, [], ?_, ?_⟩
      · rw [hr, h0]; rfl
      · rw [hf, hfold]
        cases c <;> rfl
    · by_cases hcc : c = c0
      · subst hcc
        refine ⟨c, k + 1, rest, ?_, ?_⟩
        · rw [hr, h0]
          simp [runsRevStep]
        · rw [hf, hfold]
          simp [observe]
      · refine ⟨c, 1, (c0, k) :: rest, ?_, ?_⟩
        · rw [hr, h0]
          simp [runsRevStep, hcc]
        · rw [hf, hfold]
          have hrev : ((c0, k) :: rest).reverse = rest.reverse ++ [(c0, k)] := by
            simp
          rw [hrev]
          cases c0 with
          | green =>
            have hc : c = Color.blue := by cases c <;> simp_all
            subst hc
            have hsg := pairScan_snoc_green rest.reverse none k
              (pairScan none rest.reverse).1 (pairScan none rest.reverse).2.1
              (pairScan none rest.reverse).2.2 rfl
            rw [hsg]
            simp [observe]
          | blue =>
            have hc : c = Color.green := by cases c <;> simp_all
            subst hc
            cases hp : (pairScan none rest.reverse).1 with
            | some g =>
              have hsplit : pairScan none rest.reverse =
                  ((pairScan none rest.reverse).1, (pairScan none rest.reverse).2.1,
                    (pairScan none rest.reverse).2.2) := rfl
              rw [hp] at hsplit
              have hsb := pairScan_snoc_blue_some rest.reverse none k g
                (pairScan none rest.reverse).2.1 (pairScan none rest.reverse).2.2 hsplit
              rw [hsb]
              simp only [observe, hp]
              refine RunAcc.mk.injEq .. ▸ ?_
              exact ⟨rfl, rfl, rfl, rfl, rfl, by omega⟩
            | none =>
              have hsplit : pairScan none rest.reverse =
                  ((pairScan none rest.reverse).1, (pairScan none rest.reverse).2.1,
                    (pairScan none rest.reverse).2.2) := rfl
              rw [hp] at hsplit
              have hsb := pairScan_snoc_blue_none rest.reverse none k
                (pairScan none rest.reverse).2.1 (pairScan none rest.reverse).2.2 hsplit
              rw [hsb]
              simp [observe, hp]

/-- Folding a replicated block of the current run's own color only grows
the current run length. -/
theorem foldl_observe_replicate : ∀ (m : Nat) (cc : Color) (k : Nat) (p : Option Nat)
    (tg tb tr : Nat),
    (List.replicate m cc).foldl observe ⟨some cc, k, p, tg, tb, tr⟩ =
      ⟨some cc, k + m, p, tg, tb, tr⟩ := by
  intro m
  induction m with
  | zero => intro cc k p tg tb tr; rfl
  | succ mm ih =>
    intro cc k p tg tb tr
    rw [List.replicate_succ, List.foldl_cons]
    have hobs : observe ⟨some cc, k, p, tg, tb, tr⟩ cc = ⟨some cc, k + 1, p, tg, tb, tr⟩ := by
      simp [observe]
    rw [hobs, ih]
    refine RunAcc.mk.injEq .. ▸ ?_
    exact ⟨rfl, by omega, rfl, rfl, rfl, rfl⟩

/-- A strictly alternating sequence with positive green lengths, followed
by one extra green element, is one green element followed by the glued
chunk form. -/
theorem altSeq_glue : ∀ (ps : List (Nat × Nat)), (∀ p ∈ ps, 0 < p.1) →
    altSeq ps ++ [Color.green] = Color.green :: glued ps := by
  intro ps
  induction ps with
  | nil => intro _; rfl
  | cons q ps ih =>
    intro hpos
    obtain ⟨a, b⟩ := q
    have ha : 0 < a := hpos _ (List.mem_cons_self _ _)
    obtain ⟨a1, rfl⟩ : ∃ a1, a = a1 + 1 := ⟨a - 1, by omega⟩
    have htail := ih (fun p hp => hpos p (List.mem_cons_of_mem _ hp))
    simp only [altSeq, glued, List.append_assoc, List.replicate_succ, List.cons_append,
      Nat.add_sub_cancel]
    rw [htail]

/-- Folding the glued chunk list from a fresh green run of length one
accumulates exactly the pair sums into the tallies and ends again in a
fresh green run of length one. -/
theorem glued_fold : ∀ (ps : List (Nat × Nat)), (∀ p ∈ ps, 0 < p.1 ∧ 0 < p.2) →
    ∀ (p : Option Nat) (tg tb tr : Nat),
    ∃ q : Option Nat,
      (glued ps).foldl observe ⟨some Color.green, 1, p, tg, tb, tr⟩ =
        ⟨some Color.green, 1, q, tg + (ps.map Prod.fst).sum, tb + (ps.map Prod.snd).sum,
          tr + ((ps.map Prod.fst).sum + (ps.map Prod.snd).sum)⟩ := by
  intro ps
  induction ps with
  | nil =>
    intro _ p tg tb tr
    exact ⟨p, by simp [glued]⟩
  | cons x ps ih =>
    intro hpos p tg tb tr
    obtain ⟨a, b⟩ := x
    obtain ⟨ha, hb⟩ := hpos _ (List.mem_cons_self _ _)
    obtain ⟨b1, rfl⟩ : ∃ b1, b = b1 + 1 := ⟨b - 1, by omega⟩
    simp only [glued, List.foldl_append]
    rw [foldl_observe_replicate]
    have hgb : observe ⟨some Color.green, 1 + (a - 1), p, tg, tb, tr⟩ Color.blue =
        ⟨some Color.blue, 1, some (1 + (a - 1)), tg, tb, tr⟩ := by
      simp [observe]
    have hblue : List.foldl observe ⟨some Color.green, 1 + (a - 1), p, tg, tb, tr⟩
        (List.replicate (b1 + 1) Color.blue) =
        ⟨some Color.blue, 1 + b1, some (1 + (a - 1)), tg, tb, tr⟩ := by
      rw [List.replicate_succ, List.foldl_cons, hgb, foldl_observe_replicate]
    have hbg : observe ⟨some Color.blue, 1 + b1, some (1 + (a - 1)), tg, tb, tr⟩ Color.green =
        ⟨some Color.green, 1, none, tg + (1 + (a - 1)), tb + (1 + b1),
          tr + ((1 + (a - 1)) + (1 + b1))⟩ := by
      simp [observe]
    rw [hblue, List.foldl_cons, hbg]
    obtain ⟨q, hq⟩ := ih (fun x hx => hpos x (List.mem_cons_of_mem _ hx)) none
      (tg + (1 + (a - 1))) (tb + (1 + b1)) (tr + ((1 + (a - 1)) + (1 + b1)))
    refine ⟨q, ?_⟩
    rw [hq]
    refine RunAcc.mk.injEq .. ▸ ?_
    refine ⟨rfl, rfl, rfl, ?_, ?_, ?_⟩ <;> simp <;> omega

/-- While the deferred-print flag is set, a stretch of green-classified
starts that crosses no power boundary and no heartbeat position leaves the
flag, the event trace and the power counter unchanged. -/
theorem awaitPersist : ∀ (L : List (Nat × Color)) (s : MState),
    s.print_await_next_pair = true →
    (∀ p ∈ L, p.2 = Color.green ∧ p.1 ≠ 1 ∧ p.1 + 1 ≠ 2 ^ s.next_pow ∧ p.1 % 16384 ≠ 1) →
    (runPairs s L).print_await_next_pair = true ∧
    (runPairs s L).events = s.events ∧
    (runPairs s L).next_pow = s.next_pow := by
  intro L
  induction L with
  | nil => intro s h _; exact ⟨h, rfl, rfl⟩
  | cons x L ih =>
    intro s hs hall
    obtain ⟨m, col⟩ := x
    obtain ⟨hcol, hm1, hmb, hmh⟩ := hall _ (List.mem_cons_self _ _)
    simp only at hcol
    subst hcol
    have hcur : (updAcc s m Color.green).current_color = some Color.green := by
      unfold updAcc
      rw [if_neg hm1]
      exact observe_current _ _
    have hev : emittedEvents s m Color.green = [] := by
      unfold emittedEvents
      rw [if_neg (by simp [hcur]), if_neg hmb, if_neg hmh]
      rfl
    have hstep : runPairs s ((m, Color.green) :: L) = runPairs (mainStep s m Color.green) L := rfl
    have hmain : (mainStep s m Color.green).print_await_next_pair = true ∧
        (mainStep s m Color.green).events = s.events ∧
        (mainStep s m Color.green).next_pow = s.next_pow := by
      unfold mainStep
      refine ⟨?_, ?_, ?_⟩
      · simp only
        rw [if_neg (by intro hx; exact hmb hx.1), if_neg (by simp [hcur])]
        exact hs
      · simp only
        rw [hev, List.append_nil]
      · simp only
        rw [if_neg hmb]
    obtain ⟨ha1, ha2, ha3⟩ := hmain
    rw [hstep]
    have := ih (mainStep s m Color.green) ha1 (by
      intro p hp
      obtain ⟨x1, x2, x3, x4⟩ := hall p (List.mem_cons_of_mem _ hp)
      exact ⟨x1, x2, by rw [ha3]; exact x3, x4⟩)
    exact ⟨this.1, by rw [this.2.1, ha2], by rw [this.2.2, ha3]⟩

/-- C1, counterexample: with memo `{1,3,5}`, the start 7 is not memoized
and its trajectory hits the memoized odd 5 strictly before reaching a
power of two, yet the walk classifies it `green` (Discovered), not `blue`
(Known) as the claim requires. -/
theorem walk_memoHit_cex :
    walk_collect_odds 40 7 ({1, 3, 5} : Finset Nat) =
      some (Color.green, ({5, 13, 17, 11, 7} : Finset Nat)) ∧
    specHitsMemoBeforeTail ({1, 3, 5} : Finset Nat) 40 7 = some true ∧
    (7 : Nat) ∉ ({1, 3, 5} : Finset Nat) :=
  ⟨by rfl, by decide, by decide⟩

/-- C1, amended: a start that is not memoized is classified `green`
(Discovered) whenever its walk terminates, even when a memoized odd
integer is encountered strictly before the power-of-two tail — the walk
returns `blue` (Known) only for a start already in the memo. -/
theorem walk_green_despite_memo_hit : ∀ (fuel n : Nat) (memo : Finset Nat)
    (c : Color) (v : Finset Nat),
    n % 2 = 1 → 0 < n → 1 ∈ memo → n ∉ memo →
    specHitsMemoBeforeTail memo fuel n = some true →
    walk_collect_odds fuel n memo = some (c, v) →
    c = Color.green := by
  intro fuel n memo c v _ _ _ hm _ h
  unfold walk_collect_odds at h
  rw [if_neg hm] at h
  exact walkLoop_green fuel memo n {n} c v h

/-- C1, witness for the amended theorem at start 7 and memo `{1,3,5}`. -/
theorem walk_green_despite_memo_hit_w :
    (7 : Nat) % 2 = 1 ∧ (7 : Nat) ∉ ({1, 3, 5} : Finset Nat) ∧
    specHitsMemoBeforeTail ({1, 3, 5} : Finset Nat) 40 7 = some true ∧
    Color.green = Color.green :=
  ⟨by decide, by decide, by decide,
    walk_green_despite_memo_hit 40 7 {1, 3, 5} Color.green {5, 13, 17, 11, 7}
      (by decide) (by decide) (by decide) (by decide) (by decide) (by rfl)⟩

/-- C2, counterexample: in the concrete scenario, the walk from 7 against
memo `{1,3,5}` is classified `green` (Discovered), not `blue` (Known),
and after processing the starts 1, 3, 5, 7 the completed-pair tallies are
`totalDiscovered = 1` and `totalKnown = 1`, not 2. -/
theorem scenario_3_5_7_cex :
    (walk_collect_odds 40 7 ({1, 3, 5} : Finset Nat)).map Prod.fst = some Color.green ∧
    Color.green ≠ Color.blue ∧
    (drive 40 driveInit (oddsUpTo 7)).map
      (fun st => (st.ms.acc.total_green, st.ms.acc.total_blue)) = some (1, 1) ∧
    (1 : Nat) ≠ 2 :=
  ⟨by rfl, by decide, by decide, by decide⟩

/-- C2, amended scenario: walk(3) = (Discovered, {3,5}); walk(5) =
(Known, {5}); walk(7) = (Discovered, {7,11,17,13,5}), its walk stopping
at the memoized 5 but keeping the Discovered classification; after
processing 1, 3, 5, 7 the accumulator has one completed pair with
`totalDiscovered = 1`, `totalKnown = 1`, a green current run of length 1
and nothing pending. -/
theorem scenario_3_5_7_amended :
    walk_collect_odds 40 3 ({1} : Finset Nat) = some (Color.green, ({3, 5} : Finset Nat)) ∧
    walk_collect_odds 40 5 ({1, 3, 5} : Finset Nat) = some (Color.blue, ({5} : Finset Nat)) ∧
    walk_collect_odds 40 7 ({1, 3, 5} : Finset Nat) =
      some (Color.green, ({7, 11, 17, 13, 5} : Finset Nat)) ∧
    (drive 40 driveInit (oddsUpTo 7)).map
      (fun st => (st.ms.acc.total_green, st.ms.acc.total_blue, st.ms.acc.total_runs,
        st.ms.acc.pending_green, st.ms.acc.current_color, st.ms.acc.current_len)) =
      some (1, 1, 2, none, some Color.green, 1) := by
  have e3 : ({5, 3} : Finset Nat) = ({3, 5} : Finset Nat) := by
    ext x
    simp only [Finset.mem_insert, Finset.mem_singleton]
    tauto
  have e7 : ({5, 13, 17, 11, 7} : Finset Nat) = ({7, 11, 17, 13, 5} : Finset Nat) := by
    ext x
    simp only [Finset.mem_insert, Finset.mem_singleton]
    tauto
  refine ⟨?_, by rfl, ?_, by rfl⟩
  · rw [← e3]; rfl
  · rw [← e7]; rfl

/-- C3: whenever a walk terminates, its classification is `blue` (Known)
exactly when the start itself was in the memo at call time, and `green`
(Discovered) exactly otherwise — independent of the trajectory. -/
theorem walk_blue_iff_start_memo : ∀ (fuel n : Nat) (memo : Finset Nat)
    (c : Color) (v : Finset Nat),
    n % 2 = 1 → 3 ≤ n → 1 ∈ memo →
    walk_collect_odds fuel n memo = some (c, v) →
    (c = Color.blue ↔ n ∈ memo) ∧ (c = Color.green ↔ n ∉ memo) := by
  intro fuel n memo c v _ _ _ h
  unfold walk_collect_odds at h
  by_cases hm : n ∈ memo
  · rw [if_pos hm] at h
    simp only [Option.some.injEq, Prod.mk.injEq] at h
    rw [← h.1]
    constructor
    · exact ⟨fun _ => hm, fun _ => rfl⟩
    · constructor
      · intro hbg; cases hbg
      · intro hnm; exact absurd hm hnm
  · rw [if_neg hm] at h
    have hg := walkLoop_green fuel memo n {n} c v h
    subst hg
    constructor
    · constructor
      · intro hbg; cases hbg
      · intro hmem; exact absurd hmem hm
    · exact ⟨fun _ => hm, fun _ => rfl⟩

/-- C3, witness at the memoized start 5 and at the fresh start 3. -/
theorem walk_blue_iff_start_memo_w :
    ((Color.blue = Color.blue ↔ (5 : Nat) ∈ ({1, 3, 5} : Finset Nat)) ∧
      (Color.blue = Color.green ↔ (5 : Nat) ∉ ({1, 3, 5} : Finset Nat))) ∧
    ((Color.green = Color.blue ↔ (3 : Nat) ∈ ({1} : Finset Nat)) ∧
      (Color.green = Color.green ↔ (3 : Nat) ∉ ({1} : Finset Nat))) :=
  ⟨walk_blue_iff_start_memo 40 5 {1, 3, 5} Color.blue {5}
      (by decide) (by decide) (by decide) (by rfl),
    walk_blue_iff_start_memo 40 3 {1} Color.green {5, 3}
      (by decide) (by decide) (by decide) (by rfl)⟩

/-- C10: whenever a walk terminates, the visited set is non-empty and
contains the start; a memoized start returns exactly `(blue, {start})`;
a non-memoized start's visited set is exactly the start together with the
spec-described odd integers encountered while stepping up to the
terminating value. -/
theorem walk_visited_set_spec : ∀ (fuel n : Nat) (memo : Finset Nat)
    (c : Color) (v : Finset Nat),
    n % 2 = 1 → 0 < n → 1 ∈ memo →
    walk_collect_odds fuel n memo = some (c, v) →
    v.Nonempty ∧ n ∈ v ∧
    (n ∈ memo → c = Color.blue ∧ v = {n}) ∧
    (n ∉ memo → ∃ u, specOddsFrom memo fuel n = some u ∧ v = insert n u) := by
  intro fuel n memo c v _ _ _ h
  unfold walk_collect_odds at h
  by_cases hm : n ∈ memo
  · rw [if_pos hm] at h
    simp only [Option.some.injEq, Prod.mk.injEq] at h
    obtain ⟨hc, hv⟩ := h
    rw [← hv]
    exact ⟨⟨n, by simp⟩, by simp, fun _ => ⟨hc.symm, rfl⟩, fun hn => absurd hm hn⟩
  · rw [if_neg hm] at h
    obtain ⟨u, hu, hv⟩ := walkLoop_odds fuel memo n {n} c v h
    subst hv
    refine ⟨⟨n, by simp⟩, by simp, fun hmem => absurd hmem hm, fun _ => ⟨u, hu, ?_⟩⟩
    ext x
    simp only [Finset.mem_union, Finset.mem_insert, Finset.mem_singleton]

/-- C10, witness at start 3 with memo `{1}`. -/
theorem walk_visited_set_spec_w :
    ({5, 3} : Finset Nat).Nonempty ∧ (3 : Nat) ∈ ({5, 3} : Finset Nat) ∧
    ((3 : Nat) ∈ ({1} : Finset Nat) →
      Color.green = Color.blue ∧ ({5, 3} : Finset Nat) = {3}) ∧
    ((3 : Nat) ∉ ({1} : Finset Nat) →
      ∃ u, specOddsFrom ({1} : Finset Nat) 40 3 = some u ∧
        ({5, 3} : Finset Nat) = insert 3 u) :=
  walk_visited_set_spec 40 3 {1} Color.green {5, 3}
    (by decide) (by decide) (by decide) (by rfl)

/-- Folding any classification list keeps `total_runs` equal to
`total_green + total_blue` (the code's `total_runs` bookkeeping at lines
99-101 and 133-135). -/
theorem foldTotalsRuns : ∀ (l : List Color),
    (l.foldl observe initAcc).total_runs =
      (l.foldl observe initAcc).total_green + (l.foldl observe initAcc).total_blue := by
  intro l
  rcases foldObserve_char l with ⟨_, hf⟩ | ⟨c, k, rest, _, hf⟩
  · rw [hf]
    rfl
  · rw [hf]

/-- C4: at a run boundary the accumulator closes the current run — a
closed green run overwrites the pending length with the totals untouched;
a closed blue run with a pending green adds the pending length to the
green total and the run's length to the blue total, clearing the pending
value; a closed blue run with nothing pending changes no total; in every
case a new run of length 1 starts with the new classification. -/
theorem observe_boundary_cases : ∀ (a : RunAcc) (cc color : Color),
    a.current_color = some cc → cc ≠ color →
    (observe a color).current_color = some color ∧
    (observe a color).current_len = 1 ∧
    (cc = Color.green →
      (observe a color).pending_green = some a.current_len ∧
      (observe a color).total_green = a.total_green ∧
      (observe a color).total_blue = a.total_blue ∧
      (observe a color).total_runs = a.total_runs) ∧
    (cc = Color.blue → ∀ g, a.pending_green = some g →
      (observe a color).total_green = a.total_green + g ∧
      (observe a color).total_blue = a.total_blue + a.current_len ∧
      (observe a color).total_runs = a.total_runs + (g + a.current_len) ∧
      (observe a color).pending_green = none) ∧
    (cc = Color.blue → a.pending_green = none →
      (observe a color).total_green = a.total_green ∧
      (observe a color).total_blue = a.total_blue ∧
      (observe a color).total_runs = a.total_runs ∧
      (observe a color).pending_green = none) := by
  intro a cc color hcc hne
  have hne' : ¬(color = cc) := fun h => hne h.symm
  cases cc with
  | green =>
    have hobs : observe a color =
        { a with pending_green := some a.current_len,
                 current_color := some color, current_len := 1 } := by
      simp [observe, hcc, hne']
    rw [hobs]
    exact ⟨rfl, rfl, fun _ => ⟨rfl, rfl, rfl, rfl⟩,
      fun hb => Color.noConfusion hb, fun hb => Color.noConfusion hb⟩
  | blue =>
    cases hp : a.pending_green with
    | some g0 =>
      have hobs : observe a color =
          { a with total_green := a.total_green + g0,
                   total_blue := a.total_blue + a.current_len,
                   total_runs := a.total_runs + (g0 + a.current_len),
                   pending_green := none,
                   current_color := some color, current_len := 1 } := by
        simp [observe, hcc, hne', hp]
      rw [hobs]
      refine ⟨rfl, rfl, fun hg => Color.noConfusion hg, fun _ g hgp => ?_,
        fun _ hnone => Option.noConfusion hnone⟩
      have hgg : g0 = g := by injection hgp
      subst hgg
      exact ⟨rfl, rfl, rfl, rfl⟩
    | none =>
      have hobs : observe a color =
          { a with current_color := some color, current_len := 1 } := by
        simp [observe, hcc, hne', hp]
      rw [hobs]
      exact ⟨rfl, rfl, fun hg => Color.noConfusion hg,
        fun _ g hgp => Option.noConfusion hgp,
        fun _ _ => ⟨rfl, rfl, rfl, hp⟩⟩

/-- C4, witness: a blue observation closing a green run of length 2, and
a green observation closing a blue run of length 3 with 2 pending. -/
theorem observe_boundary_cases_w :
    ((observe ⟨some Color.green, 2, none, 0, 0, 0⟩ Color.blue).current_color =
        some Color.blue ∧
      (observe ⟨some Color.green, 2, none, 0, 0, 0⟩ Color.blue).pending_green = some 2) ∧
    ((observe ⟨some Color.blue, 3, some 2, 0, 0, 0⟩ Color.green).total_green = 0 + 2 ∧
      (observe ⟨some Color.blue, 3, some 2, 0, 0, 0⟩ Color.green).total_blue = 0 + 3) := by
  have h1 := observe_boundary_cases ⟨some Color.green, 2, none, 0, 0, 0⟩
    Color.green Color.blue rfl (by decide)
  have h2 := observe_boundary_cases ⟨some Color.blue, 3, some 2, 0, 0, 0⟩
    Color.blue Color.green rfl (by decide)
  exact ⟨⟨h1.1, (h1.2.2.1 rfl).1⟩,
    ⟨((h2.2.2.2.1 rfl) 2 rfl).1, ((h2.2.2.2.1 rfl) 2 rfl).2.1⟩⟩

/-- C5: after folding any classification sequence, the `total_runs`
counter equals `total_green + total_blue`, that sum equals the sum of the
lengths of all runs closed as part of a completed pair, and the reported
percentage pair depends only on the three totals — not on the in-progress
run length or the pending green length. -/
theorem acc_totals_invariant : ∀ (l : List Color),
    (l.foldl observe initAcc).total_runs =
      (l.foldl observe initAcc).total_green + (l.foldl observe initAcc).total_blue ∧
    (l.foldl observe initAcc).total_green + (l.foldl observe initAcc).total_blue =
      pairSum l ∧
    (∀ a : RunAcc,
      a.total_green = (l.foldl observe initAcc).total_green →
      a.total_blue = (l.foldl observe initAcc).total_blue →
      a.total_runs = (l.foldl observe initAcc).total_runs →
      pctPair a = pctPair (l.foldl observe initAcc)) := by
  intro l
  have hdet : ∀ a : RunAcc,
      a.total_green = (l.foldl observe initAcc).total_green →
      a.total_blue = (l.foldl observe initAcc).total_blue →
      a.total_runs = (l.foldl observe initAcc).total_runs →
      pctPair a = pctPair (l.foldl observe initAcc) := by
    intro a h1 h2 h3
    unfold pctPair
    rw [h1, h2, h3]
  rcases foldObserve_char l with ⟨h0, hf⟩ | ⟨c, k, rest, h0, hf⟩
  · refine ⟨?_, ?_, hdet⟩
    · rw [hf]
      rfl
    · rw [hf]
      unfold pairSum closedRuns
      rw [h0]
      rfl
  · refine ⟨?_, ?_, hdet⟩
    · rw [hf]
    · rw [hf]
      unfold pairSum closedRuns
      rw [h0]
      rfl

/-- C5, witness: the percentage pair after one completed pair of runs is
unchanged when the in-progress fields are replaced. -/
theorem acc_totals_invariant_w :
    pctPair ⟨none, 17, some 5, 1, 1, 2⟩ =
      pctPair ([Color.green, Color.blue, Color.green].foldl observe initAcc) :=
  (acc_totals_invariant [Color.green, Color.blue, Color.green]).2.2
    ⟨none, 17, some 5, 1, 1, 2⟩ (by decide) (by decide) (by decide)

/-- C8, counterexample: for the alternating run lengths [1, 1] (k = 1),
folding the accumulator over the first 2k runs leaves both totals at 0,
not at the claimed sums 1 and 1 — the k-th pair only completes when the
blue run is closed by a later element. -/
theorem alternating_pairs_cex :
    altSeq [(1, 1)] = [Color.green, Color.blue] ∧
    ([Color.green, Color.blue].foldl observe initAcc).total_green = 0 ∧
    ([Color.green, Color.blue].foldl observe initAcc).total_blue = 0 ∧
    (0 : Nat) ≠ 1 :=
  ⟨by decide, by decide, by decide, by decide⟩

/-- C8, amended: folding the accumulator over the first 2k alternating
runs followed by one further Discovered classification (which closes the
k-th Known run) yields `totalDiscovered` and `totalKnown` equal to the
sums of the k green and k blue run lengths respectively. -/
theorem alternating_pairs_amended : ∀ (ps : List (Nat × Nat)),
    (∀ p ∈ ps, 0 < p.1 ∧ 0 < p.2) →
    ((altSeq ps ++ [Color.green]).foldl observe initAcc).total_green =
      (ps.map Prod.fst).sum ∧
    ((altSeq ps ++ [Color.green]).foldl observe initAcc).total_blue =
      (ps.map Prod.snd).sum := by
  intro ps hpos
  rw [altSeq_glue ps (fun p hp => (hpos p hp).1)]
  rw [List.foldl_cons]
  have h1 : observe initAcc Color.green = ⟨some Color.green, 1, none, 0, 0, 0⟩ := rfl
  rw [h1]
  obtain ⟨q, hq⟩ := glued_fold ps hpos none 0 0 0
  rw [hq]
  constructor <;> simp

/-- C8, witness at run lengths [(1, 2)]. -/
theorem alternating_pairs_amended_w :
    ((altSeq [(1, 2)] ++ [Color.green]).foldl observe initAcc).total_green =
      (([((1 : Nat), (2 : Nat))]).map Prod.fst).sum ∧
    ((altSeq [(1, 2)] ++ [Color.green]).foldl observe initAcc).total_blue =
      (([((1 : Nat), (2 : Nat))]).map Prod.snd).sum :=
  alternating_pairs_amended [(1, 2)] (by decide)

/-- C9: the percentage pair is `(0, 0)` exactly when
`totalDiscovered + totalKnown = 0`, and otherwise equals each total
divided by their sum (times the presentation factor 100); and the scan
that processes only the start 1 ends with all totals zero, percentages
`(0, 0)` and one start counted as progress. -/
theorem percentages_from_totals : ∀ (l : List Color),
    (pctPair (l.foldl observe initAcc) = (0, 0) ↔
      (l.foldl observe initAcc).total_green + (l.foldl observe initAcc).total_blue = 0) ∧
    ((l.foldl observe initAcc).total_green + (l.foldl observe initAcc).total_blue ≠ 0 →
      pctPair (l.foldl observe initAcc) =
        (100 * ((l.foldl observe initAcc).total_green : ℚ) /
            (((l.foldl observe initAcc).total_green : ℚ) +
              ((l.foldl observe initAcc).total_blue : ℚ)),
         100 * ((l.foldl observe initAcc).total_blue : ℚ) /
            (((l.foldl observe initAcc).total_green : ℚ) +
              ((l.foldl observe initAcc).total_blue : ℚ)))) ∧
    (drive 40 driveInit (oddsUpTo 1)).map
      (fun st => (st.ms.acc.total_green, st.ms.acc.total_blue, st.ms.acc.total_runs,
        pctPair st.ms.acc, st.ms.processed)) = some (0, 0, 0, (0, 0), 1) := by
  intro l
  have htr := foldTotalsRuns l
  refine ⟨?_, ?_, by rfl⟩
  · unfold pctPair
    by_cases h : 0 < (l.foldl observe initAcc).total_runs
    · rw [if_pos h]
      have hsum : (l.foldl observe initAcc).total_green +
          (l.foldl observe initAcc).total_blue ≠ 0 := by omega
      constructor
      · intro hz
        exfalso
        have h1 := congrArg Prod.fst hz
        have h2 := congrArg Prod.snd hz
        simp only at h1 h2
        have hden : ((l.foldl observe initAcc).total_runs : ℚ) ≠ 0 :=
          Nat.cast_ne_zero.mpr (by omega)
        rw [div_eq_zero_iff] at h1 h2
        rcases h1 with h1 | h1
        · rcases h2 with h2 | h2
          · have hg0 : (l.foldl observe initAcc).total_green = 0 := by
              rcases mul_eq_zero.mp h1 with hx | hx
              · norm_num at hx
              · exact_mod_cast hx
            have hb0 : (l.foldl observe initAcc).total_blue = 0 := by
              rcases mul_eq_zero.mp h2 with hx | hx
              · norm_num at hx
              · exact_mod_cast hx
            omega
          · exact hden h2
        · exact hden h1
      · intro hz
        exact absurd hz hsum
    · rw [if_neg h]
      constructor
      · intro _
        omega
      · intro _
        rfl
  · intro hne
    unfold pctPair
    have h : 0 < (l.foldl observe initAcc).total_runs := by omega
    rw [if_pos h, htr]
    push_cast
    rfl

/-- C9, witness: after the classification sequence green, blue, green one
pair of lengths 1 and 1 is complete, and the percentage pair equals the
totals divided by their sum. -/
theorem percentages_from_totals_w :
    pctPair ([Color.green, Color.blue, Color.green].foldl observe initAcc) =
      (100 * (([Color.green, Color.blue, Color.green].foldl observe initAcc).total_green : ℚ) /
          ((([Color.green, Color.blue, Color.green].foldl observe initAcc).total_green : ℚ) +
            (([Color.green, Color.blue, Color.green].foldl observe initAcc).total_blue : ℚ)),
       100 * (([Color.green, Color.blue, Color.green].foldl observe initAcc).total_blue : ℚ) /
          ((([Color.green, Color.blue, Color.green].foldl observe initAcc).total_green : ℚ) +
            (([Color.green, Color.blue, Color.green].foldl observe initAcc).total_blue : ℚ))) :=
  (percentages_from_totals [Color.green, Color.blue, Color.green]).2.1 (by decide)

/-- C6, counterexample: run the loop on classifications blue (n = 1,
skipped), fifteen greens (n = 3..31) and one blue (n = 33).  The boundary
n = 31 = 2^5 - 1 satisfies n ≥ 17, so only the deferral flag is set and
the power counter moves to 6; the deferred checkpoint then fires at
n = 33 — the first green-to-blue transition — carrying power 6 (not 5)
while `total_runs` is still 0, i.e. before any run-pair has completed; no
checkpoint carrying power 5 is ever emitted. -/
theorem checkpoint_deferred_cex :
    (runColors (Color.blue :: List.replicate 15 Color.green ++ [Color.blue])).events =
      [Ev.heartbeat 1, Ev.checkpoint 2 0 0 3, Ev.checkpoint 3 0 0 7,
       Ev.checkpoint 4 0 0 15, Ev.checkpoint 6 0 0 33] ∧
    (runColors (Color.blue :: List.replicate 15 Color.green ++ [Color.blue])).acc.total_runs
      = 0 ∧
    (5 : Nat) ≠ 6 :=
  ⟨by decide, by decide, by decide⟩

/-- C6, amended behavior of the checkpoint machinery, per loop iteration
and across deferral stretches: a boundary `n + 1 = 2 ^ next_pow` with
`n < 17` emits the checkpoint immediately with the current power and
percentages and increments the power counter; a boundary with `n ≥ 17`
emits nothing, sets the deferral flag and increments the power counter;
with the flag set and no boundary, the deferred checkpoint is emitted
exactly when the current run just became Known (blue) while the previous
iteration's run was Discovered (green) — carrying the power counter's
value at emission time, before the pending pair is counted — and
otherwise the flag persists; over any stretch of green classifications
crossing no boundary and no heartbeat position, the flag, trace and power
counter are unchanged. -/
theorem checkpoint_emission_amended : ∀ (s : MState) (n : Nat) (c : Color),
    (s.print_await_next_pair = false → n + 1 = 2 ^ s.next_pow → n < 17 → n % 16384 ≠ 1 →
      emittedEvents s n c =
        [Ev.checkpoint s.next_pow (pctPair (updAcc s n c)).1 (pctPair (updAcc s n c)).2 n] ∧
      (mainStep s n c).next_pow = s.next_pow + 1 ∧
      (mainStep s n c).print_await_next_pair = false) ∧
    (s.print_await_next_pair = false → n + 1 = 2 ^ s.next_pow → 17 ≤ n → n % 16384 ≠ 1 →
      emittedEvents s n c = [] ∧
      (mainStep s n c).next_pow = s.next_pow + 1 ∧
      (mainStep s n c).print_await_next_pair = true) ∧
    (s.print_await_next_pair = true → n + 1 ≠ 2 ^ s.next_pow → n % 16384 ≠ 1 →
      ((updAcc s n c).current_color = some Color.blue ∧
          s.previous_color = some Color.green →
        emittedEvents s n c =
          [Ev.checkpoint s.next_pow (pctPair (updAcc s n c)).1 (pctPair (updAcc s n c)).2 n] ∧
        (mainStep s n c).print_await_next_pair = false ∧
        (mainStep s n c).next_pow = s.next_pow) ∧
      (¬((updAcc s n c).current_color = some Color.blue ∧
          s.previous_color = some Color.green) →
        emittedEvents s n c = [] ∧
        (mainStep s n c).print_await_next_pair = true ∧
        (mainStep s n c).next_pow = s.next_pow)) ∧
    (∀ L : List (Nat × Color), s.print_await_next_pair = true →
      (∀ p ∈ L, p.2 = Color.green ∧ p.1 ≠ 1 ∧ p.1 + 1 ≠ 2 ^ s.next_pow ∧
        p.1 % 16384 ≠ 1) →
      (runPairs s L).print_await_next_pair = true ∧
      (runPairs s L).events = s.events ∧
      (runPairs s L).next_pow = s.next_pow) := by
  intro s n c
  refine ⟨?_, ?_, ?_, fun L h1 h2 => awaitPersist L s h1 h2⟩
  · intro h1 h2 h3 h4
    have h5 : ¬(17 ≤ n) := by omega
    refine ⟨?_, ?_, ?_⟩
    · unfold emittedEvents
      rw [if_neg (by simp [h1]), if_pos h2, if_neg h5, if_neg h4]
      rfl
    · unfold mainStep
      simp only
      rw [if_pos h2]
    · unfold mainStep
      simp only
      rw [if_neg (fun hx => h5 hx.2), if_neg (by simp [h1])]
      exact h1
  · intro h1 h2 h3 h4
    refine ⟨?_, ?_, ?_⟩
    · unfold emittedEvents
      rw [if_neg (by simp [h1]), if_pos h2, if_pos h3, if_neg h4]
      rfl
    · unfold mainStep
      simp only
      rw [if_pos h2]
    · unfold mainStep
      simp only
      rw [if_pos ⟨h2, h3⟩]
  · intro h1 h2 h3
    constructor
    · intro hfire
      refine ⟨?_, ?_, ?_⟩
      · unfold emittedEvents
        rw [if_pos ⟨h1, hfire.1, hfire.2⟩, if_neg h2, if_neg h3]
        rfl
      · unfold mainStep
        simp only
        rw [if_neg (fun hx => h2 hx.1), if_pos ⟨h1, hfire.1, hfire.2⟩]
      · unfold mainStep
        simp only
        rw [if_neg h2]
    · intro hfire
      refine ⟨?_, ?_, ?_⟩
      · unfold emittedEvents
        rw [if_neg (fun hx => hfire ⟨hx.2.1, hx.2.2⟩), if_neg h2, if_neg h3]
        rfl
      · unfold mainStep
        simp only
        rw [if_neg (fun hx => h2 hx.1), if_neg (fun hx => hfire ⟨hx.2.1, hx.2.2⟩)]
        exact h1
      · unfold mainStep
        simp only
        rw [if_neg h2]

/-- C6, witness: the immediate boundary at n = 3 from the initial state,
and a deferred emission at n = 33 from a flagged state whose run just
turned blue after a green run. -/
theorem checkpoint_emission_amended_w :
    (emittedEvents initM 3 Color.green =
      [Ev.checkpoint 2 (pctPair (updAcc initM 3 Color.green)).1
        (pctPair (updAcc initM 3 Color.green)).2 3] ∧
      (mainStep initM 3 Color.green).next_pow = 3 ∧
      (mainStep initM 3 Color.green).print_await_next_pair = false) ∧
    (emittedEvents
        { acc := ⟨some Color.green, 15, none, 0, 0, 0⟩,
          previous_color := some Color.green, processed := 16, next_pow := 6,
          print_await_next_pair := true, events := [] } 33 Color.blue =
      [Ev.checkpoint 6
        (pctPair (updAcc
          { acc := ⟨some Color.green, 15, none, 0, 0, 0⟩,
            previous_color := some Color.green, processed := 16, next_pow := 6,
            print_await_next_pair := true, events := [] } 33 Color.blue)).1
        (pctPair (updAcc
          { acc := ⟨some Color.green, 15, none, 0, 0, 0⟩,
            previous_color := some Color.green, processed := 16, next_pow := 6,
            print_await_next_pair := true, events := [] } 33 Color.blue)).2 33]) :=
  ⟨(checkpoint_emission_amended initM 3 Color.green).1
      (by decide) (by decide) (by decide) (by decide),
    (((checkpoint_emission_amended
        { acc := ⟨some Color.green, 15, none, 0, 0, 0⟩,
          previous_color := some Color.green, processed := 16, next_pow := 6,
          print_await_next_pair := true, events := [] } 33 Color.blue).2.2.1
      (by decide) (by decide) (by decide)).1 (by exact ⟨by decide, by decide⟩)).1⟩

/-- C7, counterexample: the heartbeat fires at the very first processed
start (position 1, n = 1), which is not a multiple of 16384, and does not
fire at the 16384-th processed start (n = 2 * 16384 - 1 = 32767). -/
theorem heartbeat_cadence_cex :
    (runColors [Color.blue]).events = [Ev.heartbeat 1] ∧
    ¬((16384 : Nat) ∣ 1) ∧
    emittedEvents { initM with next_pow := 20 } 32767 Color.green = [] ∧
    (32767 : Nat) = 2 * 16384 - 1 :=
  ⟨by decide, by decide, by decide, by decide⟩

/-- C7, amended: a heartbeat is emitted on the iteration for start `n`
exactly when `n % 16384 = 1`; in terms of 1-indexed positions `p` in the
scanned odd sequence (`n = 2p - 1`) that is exactly `p % 8192 = 1`, i.e.
positions 1, 8193, 16385, … — every 8192 starts, beginning with the
first, not every 16384-th position. -/
theorem heartbeat_iff_amended : ∀ (s : MState) (n : Nat) (c : Color),
    (Ev.heartbeat n ∈ emittedEvents s n c ↔ n % 16384 = 1) ∧
    (∀ p : Nat, 1 ≤ p → ((2 * p - 1) % 16384 = 1 ↔ p % 8192 = 1)) := by
  intro s n c
  constructor
  · unfold emittedEvents
    constructor
    · intro h
      rcases List.mem_append.mp h with h' | h'
      · rcases List.mem_append.mp h' with h'' | h''
        · exfalso
          revert h''
          split <;> simp
        · exfalso
          revert h''
          split
          · split <;> simp
          · simp
      · revert h'
        split
        · intro _
          assumption
        · simp
    · intro h
      refine List.mem_append.mpr (Or.inr ?_)
      rw [if_pos h]
      exact List.mem_singleton.mpr rfl
  · intro p hp
    omega

/-- C7, witness: the heartbeat at n = 1 and the position arithmetic at
p = 8193. -/
theorem heartbeat_iff_amended_w :
    Ev.heartbeat 1 ∈ emittedEvents initM 1 Color.blue ∧
    ((2 * 8193 - 1) % 16384 = 1) :=
  ⟨(heartbeat_iff_amended initM 1 Color.blue).1.mpr (by decide),
    ((heartbeat_iff_amended initM 1 Color.blue).2 8193 (by decide)).mpr (by decide)⟩
